import Mathlib

/-!
Verification of the UniAgent-AFM bounded-step tool-calling agent loop.

Shallow embedding of the repository's Python sources:
  * `src/agent_systems/math_agent/tools.py` and `agent.py`  (strict math agent)
  * `src/agent_systems/Math_agent/tools.py` and `agent.py`  (lenient math agent)
  * `src/agent_systems/legal_agent/tools.py`                (retrieval tools)
  * `src/agent_systems/MHQA_agent/tools.py`                 (hybrid merge)

Modelling conventions:
  * Python floats are modelled as exact rationals (`ℚ`).  The float power
    operation `a ** b`, whose value is irrational for fractional exponents,
    is threaded through the embedding as an explicit function parameter
    `fp : ℚ → ℚ → ℚ`; every theorem quantifies over it (or constrains it
    only at the concrete points the source actually evaluates).
  * Python exceptions become `Except PyErr`; `ValueError` raised by a tool is
    the spec's `DomainError`, `ToolError` is `UnknownTool`.
  * The external LLM oracle is an arbitrary function from the conversation
    history to a (parsed) plan, universally quantified in every theorem.
-/

namespace UniAgent

/-- Python-level errors crossing the embedded functions.  `valueError` is
Python's `ValueError` (the spec's `DomainError` / `UnresolvableArgument` /
`MalformedPlan` / `FinalizationError` depending on the raise site),
`toolError` is `tools.ToolError` (the spec's `UnknownTool`), `typeError` is
Python's `TypeError` from a keyword-argument mismatch. -/
inductive PyErr where
  | valueError (msg : String)
  | toolError (msg : String)
  | typeError (msg : String)
deriving DecidableEq, Repr

deriving instance DecidableEq for Except

/-- Power of ten with an integer exponent, as exact rational arithmetic
(`Decimal("1").scaleb(-ndigits)` in `tools.py` is exact). -/
def pow10 (n : ℤ) : ℚ :=
  if 0 ≤ n then ((10 : ℚ) ^ n.toNat) else 1 / ((10 : ℚ) ^ (-n).toNat)

/-- Round a rational to the nearest integer, ties away from zero.  This is
`decimal.ROUND_HALF_UP` ("round to nearest with ties going away from zero"). -/
def halfUpInt (q : ℚ) : ℤ :=
  if 0 ≤ q then ⌊q + 1/2⌋ else -⌊-q + 1/2⌋

/-- Truncation toward zero: Python's `int()` applied to a float. -/
def truncInt (q : ℚ) : ℤ :=
  if 0 ≤ q then ⌊q⌋ else ⌈q⌉

/-- The helper of `math_agent/tools.py`:
`_round_half_up(x, ndigits)` quantizes `x` to a multiple of `10^(-ndigits)`
with `decimal.ROUND_HALF_UP`.  `Decimal(str(x))` is exact under the
exact-rational model of floats. -/
def roundHalfUp (x : ℚ) (ndigits : ℤ) : ℚ :=
  (halfUpInt (x * pow10 ndigits) : ℚ) / pow10 ndigits

/-- The `round` tool of `math_agent/tools.py`:
`round(x, ndigits=0)` is `_round_half_up(float(x), int(ndigits))`. -/
def roundTool (x : ℚ) (ndigits : ℚ) : ℚ :=
  roundHalfUp x (truncInt ndigits)

/-- The `add` tool. -/
def addTool (a b : ℚ) : ℚ := a + b

/-- The `subtract` tool (subtract `b` from `a`). -/
def subtractTool (a b : ℚ) : ℚ := a - b

/-- The `multiply` tool. -/
def multiplyTool (a b : ℚ) : ℚ := a * b

/-- The `square` tool: `float(x) * float(x)`. -/
def squareTool (x : ℚ) : ℚ := x * x

/-- The `divide` tool: raises `ValueError` on a zero divisor, otherwise `a / b`. -/
def divide (a b : ℚ) : Except PyErr ℚ :=
  if b = 0 then .error (.valueError "divide: division by zero") else .ok (a / b)

/-- The tolerance `1e-12` of the integer-exponent check in `power`
(exact under the exact-rational model of float literals). -/
def powTol : ℚ := 1 / 10 ^ (12 : ℕ)

/-- The `power` tool: `a ** b`, raising `ValueError` when `a < 0` and `b` is
farther than `1e-12` from `round(b)` (the module-level half-up round; the
distance to it equals the distance to the nearest integer).  The float power
itself is the parameter `fp`. -/
def power (fp : ℚ → ℚ → ℚ) (a b : ℚ) : Except PyErr ℚ :=
  if a < 0 ∧ powTol < |b - roundHalfUp b 0| then
    .error (.valueError "power: negative base requires integer exponent")
  else .ok (fp a b)

/-- The `sqrt` tool: raises `ValueError` for a negative operand, otherwise
returns `x ** 0.5` (the float power `fp x (1/2)`). -/
def sqrtTool (fp : ℚ → ℚ → ℚ) (x : ℚ) : Except PyErr ℚ :=
  if x < 0 then .error (.valueError "sqrt: domain error (x < 0)") else .ok (fp x (1/2))

/-- A trivial interpretation of the abstract float-power parameter, used to
close universally quantified statements at a concrete point. -/
def fpowTriv : ℚ → ℚ → ℚ := fun _ _ => 0

/-! String helpers over character lists.  Core `String` functions other than
literals, `++`, `==` and the `String.mk`/`String.data` pair are avoided so
that every definition reduces inside the kernel. -/

/-- Python's whitespace set for `str.strip()` and the regex class `\s`
(ASCII part: space, tab, newline, carriage return, vertical tab, form feed). -/
def pyWS (c : Char) : Bool :=
  c = ' ' || c = '\t' || c = '\n' || c = '\r' || c = '\x0b' || c = '\x0c'

/-- Drop characters satisfying `p` from both ends of a list. -/
def stripWhile (p : Char → Bool) (l : List Char) : List Char :=
  ((l.dropWhile p).reverse.dropWhile p).reverse

/-- Python `str.strip()`. -/
def pyStrip (s : String) : String := ⟨stripWhile pyWS s.data⟩

/-- Python `str.strip(chars)` with an explicit character set. -/
def pyStripChars (cs : List Char) (s : String) : String :=
  ⟨stripWhile (fun c => cs.contains c) s.data⟩

/-- Python `str.lower()` (the sources only lowercase ASCII tool names). -/
def pyLower (s : String) : String := ⟨s.data.map Char.toLower⟩

/-- Value of a decimal digit character. -/
def digitVal (c : Char) : ℕ := c.toNat - '0'.toNat

/-- Value of a digit run, most significant first. -/
def digitsToNat (l : List Char) : ℕ := l.foldl (fun acc c => 10 * acc + digitVal c) 0

/-- The numeric-literal check of `math_agent/agent.py`'s `_to_float`:
`re.fullmatch(r"[+-]?\d+(\.\d+)?", s)`, returning the exact rational value
of the literal. -/
def toFloatRe? (l : List Char) : Option ℚ :=
  let sp : ℤ × List Char :=
    match l with
    | '+' :: t => (1, t)
    | '-' :: t => (-1, t)
    | _ => (1, l)
  let ds := sp.2.takeWhile Char.isDigit
  let r1 := sp.2.dropWhile Char.isDigit
  if ds.isEmpty then none
  else
    match r1 with
    | [] => some (mkRat (sp.1 * (digitsToNat ds : ℤ)) 1)
    | '.' :: r2 =>
      let fs := r2.takeWhile Char.isDigit
      let r3 := r2.dropWhile Char.isDigit
      if fs.isEmpty || !r3.isEmpty then none
      else some (mkRat (sp.1 * ((digitsToNat ds : ℤ) * 10 ^ fs.length + (digitsToNat fs : ℤ)))
                   (10 ^ fs.length))
    | _ => none

/-- Python's `float(str)` parser used by `Math_agent/agent.py`'s resolver,
restricted to finite decimal and scientific literals (`inf`, `nan` and
digit-group underscores are left out; no claim exercises them).  The value
is the exact rational the literal denotes. -/
def pyFloat? (l : List Char) : Option ℚ :=
  let sp : ℤ × List Char :=
    match l with
    | '+' :: t => (1, t)
    | '-' :: t => (-1, t)
    | _ => (1, l)
  let ds := sp.2.takeWhile Char.isDigit
  let r1 := sp.2.dropWhile Char.isDigit
  let mant : Option (ℤ × ℕ × List Char) :=
    if ds.isEmpty then
      match r1 with
      | '.' :: r2 =>
        let fs := r2.takeWhile Char.isDigit
        if fs.isEmpty then none
        else some ((digitsToNat fs : ℤ), fs.length, r2.dropWhile Char.isDigit)
      | _ => none
    else
      match r1 with
      | '.' :: r2 =>
        let fs := r2.takeWhile Char.isDigit
        some ((digitsToNat ds : ℤ) * 10 ^ fs.length + (digitsToNat fs : ℤ), fs.length,
              r2.dropWhile Char.isDigit)
      | _ => some ((digitsToNat ds : ℤ), 0, r1)
  match mant with
  | none => none
  | some (mnum, flen, rest) =>
    match rest with
    | [] => some (mkRat (sp.1 * mnum) (10 ^ flen))
    | e :: r2 =>
      if e = 'e' || e = 'E' then
        let ep : ℤ × List Char :=
          match r2 with
          | '+' :: t => (1, t)
          | '-' :: t => (-1, t)
          | _ => (1, r2)
        let es := ep.2.takeWhile Char.isDigit
        if es.isEmpty || !(ep.2.dropWhile Char.isDigit).isEmpty then none
        else
          let k : ℤ := ep.1 * (digitsToNat es : ℤ)
          if 0 ≤ k then some (mkRat (sp.1 * mnum * 10 ^ k.toNat) (10 ^ flen))
          else some (mkRat (sp.1 * mnum) (10 ^ flen * 10 ^ (-k).toNat))
      else none

/-- Word characters for the regex boundary `\b` (ASCII `\w`). -/
def isWordChar (c : Char) : Bool := c.isAlphanum || c = '_'

/-- Whether a word boundary stands between a word character and the head of
the remaining input. -/
def boundaryAfter : List Char → Bool
  | [] => true
  | c :: _ => !isWordChar c

/-- Match `-?\d+(?:\.\d+)?\b` at the head of the input, with the regex
engine's backtracking over the optional fraction group: if `\b` fails after
the fraction, the group is dropped and the match ends at the dot (itself a
boundary).  Returns the exact value and the rest of the input.  A successful
match always ends in a digit. -/
def matchNumber (l : List Char) : Option (ℚ × List Char) :=
  let sp : ℤ × List Char :=
    match l with
    | '-' :: t => (-1, t)
    | _ => (1, l)
  let ds := sp.2.takeWhile Char.isDigit
  let r1 := sp.2.dropWhile Char.isDigit
  if ds.isEmpty then none
  else
    let intOnly : ℚ := mkRat (sp.1 * (digitsToNat ds : ℤ)) 1
    match r1 with
    | '.' :: r2 =>
      let fs := r2.takeWhile Char.isDigit
      let r3 := r2.dropWhile Char.isDigit
      if fs.isEmpty then some (intOnly, '.' :: r2)
      else if boundaryAfter r3 then
        some (mkRat (sp.1 * ((digitsToNat ds : ℤ) * 10 ^ fs.length + (digitsToNat fs : ℤ)))
                (10 ^ fs.length), r3)
      else some (intOnly, '.' :: r2)
    | _ => if boundaryAfter r1 then some (intOnly, r1) else none

/-- Match the assignment pattern `\b([a-zA-Z])\s*=\s*(-?\d+(?:\.\d+)?)\b`
(`ASSIGN_RE` of `Math_agent/agent.py` and `agent_clean.py`) at the head of
`l`; `prev` is the character just before `l` (`none` at the string start),
needed for the leading boundary. -/
def matchAssign (prev : Option Char) (l : List Char) : Option (Char × ℚ × List Char) :=
  match l with
  | [] => none
  | c :: rest =>
    if c.isAlpha && (match prev with | none => true | some p => !isWordChar p) then
      match rest.dropWhile pyWS with
      | '=' :: r2 =>
        match matchNumber (r2.dropWhile pyWS) with
        | some (q, rest') => some (c, q, rest')
        | none => none
      | _ => none
    else none

/-- Scan for non-overlapping matches left to right (`re.findall`), resuming
after each match.  The fuel starts at `length + 1`; every step consumes at
least one character, so it never runs out.  After a match the previous
character is a digit, hence the fixed `'0'`. -/
def scanAssignsAux : Nat → Option Char → List Char → List (Char × ℚ)
  | 0, _, _ => []
  | _ + 1, _, [] => []
  | fuel + 1, prev, c :: rest =>
    match matchAssign prev (c :: rest) with
    | some (v, q, rest') => (v, q) :: scanAssignsAux fuel (some '0') rest'
    | none => scanAssignsAux fuel (some c) rest

/-- The `extract_env_vars` of `Math_agent/agent.py` (and `agent_clean.py`):
`ASSIGN_RE.findall` over the question text, building the variable
environment in match order.  A later assignment to the same letter
overwrites; the association list realizes this through `envLookup`, which
keeps the rightmost binding. -/
def extractEnvVars (question : String) : List (String × ℚ) :=
  (scanAssignsAux (question.data.length + 1) none question.data).map
    fun p => (⟨[p.1]⟩, p.2)

/-- Lookup with Python-dict overwrite semantics: the most recent binding of
a key wins. -/
def envLookup (env : List (String × ℚ)) (k : String) : Option ℚ :=
  (env.reverse.find? (fun p => p.1 == k)).map (·.2)

/-- A planner-supplied JSON argument value: a numeric literal (int or
float, exact), a string, or any other JSON structure (list, object, null,
bool) — the resolvers reject the latter. -/
inductive JVal where
  | num (q : ℚ)
  | str (s : String)
  | other
deriving DecidableEq, Repr

/-- Python `repr` of an argument value as interpolated into error messages.
The decimal rendering of floats is abstracted; no claim depends on it. -/
def pyRepr : JVal → String
  | .num _ => "<number>"
  | .str s => "'" ++ s ++ "'"
  | .other => "<object>"

/-- The strict argument resolver `resolve_arg` of `Math_agent/agent.py`:
numeric literals pass through; the stripped string `r` reads the carry
(most recent tool result), failing when none exists yet; numeric strings
are parsed with `float()`; single letters are looked up in the seeded
question environment; anything else raises `ValueError`. -/
def resolveArgM (val : JVal) (env : List (String × ℚ)) (last : Option ℚ) :
    Except PyErr ℚ :=
  match val with
  | .num q => .ok q
  | .str s =>
    let t := pyStrip s
    if t == "r" then
      match last with
      | none => .error (.valueError "r is not available before the first step")
      | some q => .ok q
    else
      match pyFloat? t.data with
      | some q => .ok q
      | none =>
        match envLookup env t with
        | some q => .ok q
        | none => .error (.valueError ("Unresolvable arg: " ++ pyRepr (.str s)))
  | .other => .error (.valueError ("Unresolvable arg: " ++ pyRepr .other))

/-! The `<final>` tag extraction and the finalization protocol of
`math_agent/agent.py`. -/

/-- Case-insensitive match of a literal word (given lowercase) at the head
of the input; returns the rest on success. -/
def matchWordCI : List Char → List Char → Option (List Char)
  | [], l => some l
  | _ :: _, [] => none
  | wc :: wr, c :: cr => if c.toLower = wc then matchWordCI wr cr else none

/-- Parse the opening tag `<\s*final\s*>` at the head of the input. -/
def parseOpenTag (l : List Char) : Option (List Char) :=
  match l with
  | '<' :: r0 =>
    match matchWordCI "final".data (r0.dropWhile pyWS) with
    | some r1 =>
      match r1.dropWhile pyWS with
      | '>' :: r2 => some r2
      | _ => none
    | none => none
  | _ => none

/-- Parse the closing tag `</\s*final\s*>` at the head of the input. -/
def parseCloseTag (l : List Char) : Option (List Char) :=
  match l with
  | '<' :: '/' :: r0 =>
    match matchWordCI "final".data (r0.dropWhile pyWS) with
    | some r1 =>
      match r1.dropWhile pyWS with
      | '>' :: r2 => some r2
      | _ => none
    | none => none
  | _ => none

/-- The lazy group `(.*?)` of `FINAL_RE`: the shortest content before a
point where the closing tag parses. -/
def scanClose : List Char → List Char → Option (List Char)
  | acc, l =>
    match parseCloseTag l with
    | some _ => some acc.reverse
    | none =>
      match l with
      | [] => none
      | c :: r => scanClose (c :: acc) r

/-- `FINAL_RE.search`: the leftmost match of
`<\s*final\s*>(.*?)</\s*final\s*>` (case-insensitive, dot-all); returns
capture group 1. -/
def finalSearch : List Char → Option (List Char)
  | [] => none
  | c :: rest =>
    match parseOpenTag (c :: rest) with
    | some afterOpen =>
      match scanClose [] afterOpen with
      | some content => some content
      | none => finalSearch rest
    | none => finalSearch rest

/-- The error text of a missing `<final>` tag (the spec's
`FinalizationError`). -/
def finalTagMsg : String := "Final answer missing or not wrapped in <final> tags."

/-- The `extract_final_answer` of `math_agent/agent.py`: tolerant
extraction — strip, drop accidental leading code fences, case-insensitive
tag search, strip the payload; raises `ValueError` when the tag is
missing. -/
def extractFinalAnswer (text : String) : Except PyErr String :=
  if text == "" then .error (.valueError finalTagMsg)
  else
    let t := pyStrip text
    let t := if t.data.take 3 = ['`', '`', '`'] then pyStripChars ['`', ' ', '\n', '\r', '\t'] t else t
    match finalSearch t.data with
    | some content => .ok (pyStrip ⟨content⟩)
    | none => .error (.valueError finalTagMsg)

/-- A conversation message (role, content). -/
structure Msg where
  role : String
  content : String
deriving DecidableEq, Repr

/-- The first finalization instruction of `_finalize_answer`
(with `final_tag = "final"`). -/
def promptFinal1 : String :=
  "Return ONLY the final numeric answer wrapped exactly as <final>NUMBER</final>. No prose or extra text."

/-- The single-retry instruction of `_finalize_answer`. -/
def promptFinalRetry : String :=
  "Your previous reply did not follow the required format.\nReturn ONLY the final numeric answer wrapped exactly as:\n<final>NUMBER</final>\nNo prose, no markdown, no extra text."

/-- The `_finalize_answer` of `math_agent/agent.py`: one oracle call with a
strict instruction appended to the history; on extraction failure exactly
one retry with a stricter instruction over the same history; a second
failure propagates (the spec's `FinalizationError`).  The `Nat` component
counts the oracle calls made — instrumentation for the bounded-retry
property, mirroring the code's call sites in order. -/
def finalizeAnswer (finOracle : List Msg → String) (history : List Msg) :
    Except PyErr String × Nat :=
  match extractFinalAnswer (pyStrip (finOracle (history ++ [⟨"user", promptFinal1⟩]))) with
  | .ok ans => (.ok ans, 1)
  | .error _ =>
    (extractFinalAnswer (pyStrip (finOracle (history ++ [⟨"user", promptFinalRetry⟩]))), 2)

/-- A demonstration finalization oracle: malformed on the first instruction,
correctly wrapped on the retry instruction. -/
def finODemo : List Msg → String := fun h =>
  if h.getLast? = some ⟨"user", promptFinalRetry⟩ then "<final>7</final>" else "12"

/-! The trajectory data model and the `run_tool` dispatcher of
`math_agent/tools.py`. -/

/-- A recorded tool call: `{"name": name, "args": kwargs}`. -/
structure ToolCallR where
  name : String
  args : List (String × ℚ)
deriving DecidableEq, Repr

/-- One trajectory step (`AFMStep` of `afm_schema.py`): the function name
(or `stop`), the model's thought, the call record, and the tool result
(`none` for `stop`). -/
structure AFMStep where
  function : String
  thought : String
  tool_call : ToolCallR
  tool_result : Option ℚ
deriving DecidableEq, Repr

/-- A planner action: a name and a JSON argument object (association list
in iteration order). -/
structure PAction where
  name : String
  args : List (String × JVal)
deriving DecidableEq, Repr

/-- An oracle plan `{thought, action}` after JSON parsing.  Unparsable
JSON or a shape violation aborts `_plan_step`/`llm_plan_step` before the
loop sees a plan; the typed embedding covers the parsed shape, and the
remaining action-name check stays in the loop. -/
structure Plan where
  thought : String
  action : PAction
deriving DecidableEq, Repr

/-- Keys of a keyword-argument mapping. -/
def argKeys (args : List (String × ℚ)) : List String := args.map (·.1)

/-- Whether keyword arguments bind exactly the required parameter names
(Python raises `TypeError` on a missing or unexpected keyword). -/
def keysMatch (args : List (String × ℚ)) (req : List String) : Bool :=
  (argKeys args).length == req.length &&
  req.all (fun k => (argKeys args).contains k) &&
  (argKeys args).all (fun k => req.contains k)

/-- Keyword lookup. -/
def kwLookup (args : List (String × ℚ)) (k : String) : Option ℚ :=
  (args.find? (fun p => p.1 == k)).map (·.2)

/-- The `run_tool` dispatcher of `math_agent/tools.py`: returns the call
record and the result (`none` for `stop`).  A tool's `ValueError`
propagates; an unknown name raises `ToolError`; a keyword mismatch raises
`TypeError` — notably `normalize_args` hands `power` the keys `{x, y}`
while `power(a, b)` declares `a`/`b`, so every `power` call fails this
way. -/
def runTool (fp : ℚ → ℚ → ℚ) (name : String) (args : List (String × ℚ)) :
    Except PyErr (ToolCallR × Option ℚ) :=
  let call : ToolCallR := ⟨name, args⟩
  let kwErr : Except PyErr (ToolCallR × Option ℚ) :=
    .error (.typeError (name ++ "() received unexpected or missing keyword arguments"))
  if name == "add" then
    match kwLookup args "a", kwLookup args "b", keysMatch args ["a", "b"] with
    | some a, some b, true => .ok (call, some (addTool a b))
    | _, _, _ => kwErr
  else if name == "subtract" then
    match kwLookup args "a", kwLookup args "b", keysMatch args ["a", "b"] with
    | some a, some b, true => .ok (call, some (subtractTool a b))
    | _, _, _ => kwErr
  else if name == "multiply" then
    match kwLookup args "a", kwLookup args "b", keysMatch args ["a", "b"] with
    | some a, some b, true => .ok (call, some (multiplyTool a b))
    | _, _, _ => kwErr
  else if name == "divide" then
    match kwLookup args "a", kwLookup args "b", keysMatch args ["a", "b"] with
    | some a, some b, true =>
      match divide a b with
      | .ok r => .ok (call, some r)
      | .error e => .error e
    | _, _, _ => kwErr
  else if name == "square" then
    match kwLookup args "x", keysMatch args ["x"] with
    | some x, true => .ok (call, some (squareTool x))
    | _, _ => kwErr
  else if name == "power" then
    match kwLookup args "a", kwLookup args "b", keysMatch args ["a", "b"] with
    | some a, some b, true =>
      match power fp a b with
      | .ok r => .ok (call, some r)
      | .error e => .error e
    | _, _, _ => kwErr
  else if name == "sqrt" then
    match kwLookup args "x", keysMatch args ["x"] with
    | some x, true =>
      match sqrtTool fp x with
      | .ok r => .ok (call, some r)
      | .error e => .error e
    | _, _ => kwErr
  else if name == "round" then
    match kwLookup args "x", keysMatch args ["x", "ndigits"], keysMatch args ["x"] with
    | some x, true, _ =>
      match kwLookup args "ndigits" with
      | some nd => .ok (call, some (roundTool x nd))
      | none => kwErr
    | some x, _, true => .ok (call, some (roundTool x 0))
    | _, _, _ => kwErr
  else if name == "stop" then .ok (call, none)
  else .error (.toolError ("Unknown tool: " ++ name))

/-- `_to_float` of `math_agent/agent.py`: numbers pass through; strings
must fully match `[+-]?\d+(\.\d+)?` after stripping; everything else
raises `ValueError`. -/
def toFloat (v : JVal) : Except PyErr ℚ :=
  match v with
  | .num q => .ok q
  | .str s =>
    match toFloatRe? (pyStrip s).data with
    | some q => .ok q
    | none => .error (.valueError ("Non-numeric literal: " ++ pyRepr (.str s)))
  | .other => .error (.valueError ("Non-numeric literal: " ++ pyRepr .other))

/-- `resolve_arg` of `math_agent/agent.py`: numeric literals pass through;
a stripped string equal to `r` (case-insensitive) reads the carry (the only
key the variable environment ever holds), failing when unset; other strings
must be numeric literals; other structures go to `_to_float`, which rejects
them. -/
def resolveArg (val : JVal) (carry : Option ℚ) : Except PyErr ℚ :=
  match val with
  | .num q => .ok q
  | .str s =>
    let v := pyStrip s
    if pyLower v == "r" then
      match carry with
      | none => .error (.valueError "Carry variable 'r' not set yet")
      | some q => .ok q
    else toFloat (.str v)
  | .other => toFloat .other

/-- JSON-object lookup (`dict.get`; `none` for a missing key). -/
def getJ (raw : List (String × JVal)) (k : String) : Option JVal :=
  (raw.find? (fun p => p.1 == k)).map (·.2)

/-- Resolve an optional raw argument; a missing key is Python `None`,
rejected by `_to_float`. -/
def resolveOpt (v : Option JVal) (carry : Option ℚ) : Except PyErr ℚ :=
  match v with
  | none => .error (.valueError "Non-numeric literal: None")
  | some val => resolveArg val carry

/-- `normalize_args` of `math_agent/agent.py`: fixed argument shapes per
tool — `a`/`b` for the binary arithmetic tools, `x` for `square`/`sqrt`,
`x`/`y` for `power`, `x` and an integer-truncated `ndigits` for `round`,
empty for `stop`; an unknown name raises `ValueError`. -/
def normalizeArgs (name : String) (raw : List (String × JVal)) (carry : Option ℚ) :
    Except PyErr (List (String × ℚ)) :=
  let n := pyLower name
  if n == "add" || n == "subtract" || n == "multiply" || n == "divide" then
    match resolveOpt (getJ raw "a") carry, resolveOpt (getJ raw "b") carry with
    | .ok a, .ok b => .ok [("a", a), ("b", b)]
    | .error e, _ => .error e
    | _, .error e => .error e
  else if n == "square" then
    match resolveOpt (getJ raw "x") carry with
    | .ok x => .ok [("x", x)]
    | .error e => .error e
  else if n == "power" then
    match resolveOpt (getJ raw "x") carry, resolveOpt (getJ raw "y") carry with
    | .ok x, .ok y => .ok [("x", x), ("y", y)]
    | .error e, _ => .error e
    | _, .error e => .error e
  else if n == "sqrt" then
    match resolveOpt (getJ raw "x") carry with
    | .ok x => .ok [("x", x)]
    | .error e => .error e
  else if n == "round" then
    match resolveOpt (getJ raw "x") carry with
    | .error e => .error e
    | .ok x =>
      match getJ raw "ndigits" with
      | none => .ok [("x", x), ("ndigits", ((0 : ℤ) : ℚ))]
      | some (.num q) => .ok [("x", x), ("ndigits", ((truncInt q : ℤ) : ℚ))]
      | some (.str s) =>
        match resolveArg (.str s) carry with
        | .ok q => .ok [("x", x), ("ndigits", ((truncInt q : ℤ) : ℚ))]
        | .error e => .error e
      | some .other => .error (.typeError "int() argument must be a number, not 'object'")
  else if n == "stop" then .ok []
  else .error (.valueError ("Unsupported action name: " ++ name))

/-- The closed action set `VALID` of `math_agent/agent.py`. -/
def validNames : List String :=
  ["add", "subtract", "multiply", "divide", "square", "power", "sqrt", "round", "stop"]

/-- The loop's normalization of an action name:
`str(action["name"]).strip().lower()`. -/
def normName (p : Plan) : String := pyLower (pyStrip p.action.name)

/-- Join strings with a separator. -/
def joinSep (sep : String) : List String → String
  | [] => ""
  | [x] => x
  | x :: xs => x ++ sep ++ joinSep sep xs

/-- JSON string escaping (quote and backslash; enough for the embedded
texts). -/
def jsonEscape (s : String) : String :=
  ⟨s.data.foldr (fun c acc =>
    if c = '"' then '\\' :: '"' :: acc
    else if c = '\\' then '\\' :: '\\' :: acc
    else c :: acc) []⟩

/-- Rendering of a rational into message text.  The decimal float `repr`
is abstracted to `num/den`; no claim depends on the rendered text (the
oracle is universally quantified). -/
def dumpQ (q : ℚ) : String := toString q.num ++ "/" ++ toString q.den

/-- JSON rendering of an argument value. -/
def dumpJVal : JVal → String
  | .num q => dumpQ q
  | .str s => "\"" ++ jsonEscape s ++ "\""
  | .other => "<object>"

/-- JSON rendering of an argument object. -/
def dumpArgs (args : List (String × JVal)) : String :=
  "\x7b" ++ joinSep ", " (args.map (fun p => "\"" ++ jsonEscape p.1 ++ "\": " ++ dumpJVal p.2)) ++ "\x7d"

/-- `json.dumps(plan)` for the assistant history entry. -/
def dumpPlan (p : Plan) : String :=
  "\x7b\"thought\": \"" ++ jsonEscape p.thought ++ "\", \"action\": \x7b\"name\": \"" ++
    jsonEscape p.action.name ++ "\", \"args\": " ++ dumpArgs p.action.args ++ "\x7d\x7d"

/-- `json.dumps(result)` for the observation entry. -/
def dumpResult : Option ℚ → String
  | none => "null"
  | some q => dumpQ q

/-- Take the first `n` characters (the observation truncation `[:2000]`). -/
def takeStr (n : ℕ) (s : String) : String := ⟨s.data.take n⟩

/-- Modelled from the spec: the system prompt rendered from the Jinja
template `prompts/math_agent_system.j2`, a file not among the sources.
Its text influences no claim — the oracle is universally quantified over
histories. -/
def systemPromptText : String := "You are a careful math planner."

/-- The stop step both loops record: function `stop`, the plan's thought,
an empty call, no result. -/
def stopStep (thought : String) : AFMStep := ⟨"stop", thought, ⟨"stop", []⟩, none⟩

/-- The carry update of the loop: overwrite on a numeric result
(`env["r"] = float(result)`), keep on `None`. -/
def carryUpdate (result : Option ℚ) (carry : Option ℚ) : Option ℚ :=
  match result with
  | some q => some q
  | none => carry

/-- The step loop of `solve` in `math_agent/agent.py`
(`for _ in range(max_steps)`), the oracle as an explicit function of the
conversation history: validate the action name, break on `stop` (recording
the stop step with no result), otherwise normalize arguments, run the tool,
record the step, extend the history with the plan JSON and the truncated
observation, and update the carry on a numeric result.  Every raised
exception propagates and aborts the run. -/
def solveLoop (fp : ℚ → ℚ → ℚ) (oracle : List Msg → Plan) :
    Nat → List Msg → List AFMStep → Option ℚ → Except PyErr (List AFMStep × List Msg)
  | 0, history, steps, _ => .ok (steps, history)
  | fuel + 1, history, steps, carry =>
    let plan := oracle history
    let name := normName plan
    if !validNames.contains name then
      .error (.valueError ("Unsupported action: " ++ name))
    else if name == "stop" then
      .ok (steps ++ [stopStep plan.thought], history)
    else
      match normalizeArgs name plan.action.args carry with
      | .error e => .error e
      | .ok args =>
        match runTool fp name args with
        | .error e => .error e
        | .ok (call, result) =>
          solveLoop fp oracle fuel
            (history ++
              [⟨"assistant", dumpPlan plan⟩,
               ⟨"system", "Observation: " ++ takeStr 2000 (dumpResult result)⟩])
            (steps ++ [⟨name, plan.thought, call, result⟩])
            (carryUpdate result carry)

/-- `solve` of `math_agent/agent.py`: system-prompt and question history,
the bounded loop, then finalization over the final history. -/
def solve (fp : ℚ → ℚ → ℚ) (oracle : List Msg → Plan) (finOracle : List Msg → String)
    (question : String) (maxSteps : Nat) : Except PyErr (List AFMStep × String) :=
  match solveLoop fp oracle maxSteps
      [⟨"system", systemPromptText⟩, ⟨"user", "Question: " ++ question⟩] [] none with
  | .error e => .error e
  | .ok (steps, history) =>
    match (finalizeAnswer finOracle history).1 with
    | .error e => .error e
    | .ok ans => .ok (steps, ans)

/-- A plan the strict loop accepts and executes successfully without
stopping, whatever the current carry: a valid non-stop action whose
arguments normalize and whose tool call returns. -/
def stepSucceeds (fp : ℚ → ℚ → ℚ) (p : Plan) (carry : Option ℚ) : Prop :=
  validNames.contains (normName p) = true ∧ normName p ≠ "stop" ∧
  ∃ args call result, normalizeArgs (normName p) p.action.args carry = .ok args ∧
    runTool fp (normName p) args = .ok (call, result)

/-- A constant planning oracle proposing `add(1, 2)`. -/
def oracleAdd : List Msg → Plan := fun _ => ⟨"t", ⟨"add", [("a", .num 1), ("b", .num 2)]⟩⟩

/-! The lenient `Math_agent` variant: `run_tool` of `Math_agent/tools.py`
and the `solve` loop of `Math_agent/agent.py`. -/

/-- The closed action set of `Math_agent/agent.py` (no `round`). -/
def validNamesM : List String :=
  ["add", "subtract", "multiply", "divide", "square", "power", "sqrt", "stop"]

/-- `run_tool` of `Math_agent/tools.py`: as the strict variant's dispatcher
but without the `round` tool.  Here `power` receives whatever keys the plan
supplied (after `require_args_for_action` guaranteed `a`/`b` are present),
so a call with exactly `a`/`b` reaches `power(a, b)`. -/
def runToolM (fp : ℚ → ℚ → ℚ) (name : String) (args : List (String × ℚ)) :
    Except PyErr (ToolCallR × Option ℚ) :=
  let call : ToolCallR := ⟨name, args⟩
  let kwErr : Except PyErr (ToolCallR × Option ℚ) :=
    .error (.typeError (name ++ "() received unexpected or missing keyword arguments"))
  if name == "add" then
    match kwLookup args "a", kwLookup args "b", keysMatch args ["a", "b"] with
    | some a, some b, true => .ok (call, some (addTool a b))
    | _, _, _ => kwErr
  else if name == "subtract" then
    match kwLookup args "a", kwLookup args "b", keysMatch args ["a", "b"] with
    | some a, some b, true => .ok (call, some (subtractTool a b))
    | _, _, _ => kwErr
  else if name == "multiply" then
    match kwLookup args "a", kwLookup args "b", keysMatch args ["a", "b"] with
    | some a, some b, true => .ok (call, some (multiplyTool a b))
    | _, _, _ => kwErr
  else if name == "divide" then
    match kwLookup args "a", kwLookup args "b", keysMatch args ["a", "b"] with
    | some a, some b, true =>
      match divide a b with
      | .ok r => .ok (call, some r)
      | .error e => .error e
    | _, _, _ => kwErr
  else if name == "square" then
    match kwLookup args "x", keysMatch args ["x"] with
    | some x, true => .ok (call, some (squareTool x))
    | _, _ => kwErr
  else if name == "power" then
    match kwLookup args "a", kwLookup args "b", keysMatch args ["a", "b"] with
    | some a, some b, true =>
      match power fp a b with
      | .ok r => .ok (call, some r)
      | .error e => .error e
    | _, _, _ => kwErr
  else if name == "sqrt" then
    match kwLookup args "x", keysMatch args ["x"] with
    | some x, true =>
      match sqrtTool fp x with
      | .ok r => .ok (call, some r)
      | .error e => .error e
    | _, _ => kwErr
  else if name == "stop" then .ok (call, none)
  else .error (.toolError ("Unknown tool: " ++ name))

/-- `require_args_for_action` of `Math_agent/agent.py`: the binary tools
require keys including `a` and `b`, `square`/`sqrt` require `x`; `stop`
(and anything else) passes.  This runs before the stop check and its
`ValueError` is not caught, so it aborts. -/
def requireArgsForAction (name : String) (raw : List (String × JVal)) : Except PyErr Unit :=
  if name == "add" || name == "subtract" || name == "multiply" || name == "divide" ||
      name == "power" then
    if (getJ raw "a").isSome && (getJ raw "b").isSome then .ok ()
    else .error (.valueError (name ++ " requires args \x7ba,b\x7d; got " ++
      joinSep ", " (raw.map (·.1))))
  else if name == "square" || name == "sqrt" then
    if (getJ raw "x").isSome then .ok ()
    else .error (.valueError (name ++ " requires arg \x7bx\x7d"))
  else .ok ()

/-- The dict comprehension
`{k: resolve_arg(v, env, last_value) for k, v in raw_args.items()}`:
resolve every raw argument in iteration order; the first failure raises. -/
def resolveAll (raw : List (String × JVal)) (env : List (String × ℚ)) (last : Option ℚ) :
    Except PyErr (List (String × ℚ)) :=
  match raw with
  | [] => .ok []
  | (k, v) :: rest =>
    match resolveArgM v env last with
    | .error e => .error e
    | .ok q =>
      match resolveAll rest env last with
      | .error e => .error e
      | .ok qs => .ok ((k, q) :: qs)

/-- The message text of a Python exception (`str(err)`). -/
def errText : PyErr → String
  | .valueError m => m
  | .toolError m => m
  | .typeError m => m

/-- The step loop of `solve` in `Math_agent/agent.py`.  Over typed plans
the planner adapter's strict shape checks reduce to the action-name check
(whose `ValueError` aborts); `require_args_for_action` runs before the stop
check and aborts on failure; `stop` records the stop step and breaks; an
argument-resolution `ValueError` is caught — the plan JSON and a corrective
error observation are appended and the loop continues, consuming the
iteration; a tool error from `run_tool` is not caught and aborts; a
successful call records the step, appends the plan and observation, and
updates the carry (`last_value = result`). -/
def solveLoopM (fp : ℚ → ℚ → ℚ) (oracle : List Msg → Plan) :
    Nat → List Msg → List AFMStep → List (String × ℚ) → Option ℚ →
      Except PyErr (List AFMStep × List Msg)
  | 0, history, steps, _, _ => .ok (steps, history)
  | fuel + 1, history, steps, env, last =>
    let plan := oracle history
    let name := normName plan
    if !validNamesM.contains name then
      .error (.valueError ("Unsupported action name: " ++ name))
    else
      match requireArgsForAction name plan.action.args with
      | .error e => .error e
      | .ok _ =>
        if name == "stop" then
          .ok (steps ++ [stopStep plan.thought], history)
        else
          match resolveAll plan.action.args env last with
          | .error e =>
            solveLoopM fp oracle fuel
              (history ++
                [⟨"assistant", dumpPlan plan⟩,
                 ⟨"system", "Error: " ++ errText e ++
                   ". Use only numeric literals, question-defined variables, or r."⟩])
              steps env last
          | .ok args =>
            match runToolM fp name args with
            | .error e => .error e
            | .ok (call, result) =>
              solveLoopM fp oracle fuel
                (history ++
                  [⟨"assistant", dumpPlan plan⟩,
                   ⟨"system", "Observation: " ++ dumpResult result ++ "."⟩])
                (steps ++ [⟨name, plan.thought, call, result⟩]) env result

/-- `solve` of `Math_agent/agent.py`: seed the variable environment from
the question, run the loop over the question-only history, then one
unconstrained finalization call whose stripped text is the answer. -/
def solveM (fp : ℚ → ℚ → ℚ) (oracle : List Msg → Plan) (finOracle : List Msg → String)
    (question : String) (maxSteps : Nat) : Except PyErr (List AFMStep × String) :=
  match solveLoopM fp oracle maxSteps [⟨"user", "Question: " ++ question⟩] []
      (extractEnvVars question) none with
  | .error e => .error e
  | .ok (steps, history) =>
    .ok (steps, pyStrip (finOracle (history ++
      [⟨"user", "Given the observations, return only the final numeric answer."⟩])))

/-- A constant planning oracle proposing `divide(1, 0)`. -/
def oracleDivZero : List Msg → Plan :=
  fun _ => ⟨"t", ⟨"divide", [("a", .num 1), ("b", .num 0)]⟩⟩

/-- A constant planning oracle proposing `add` with the unresolvable
argument string `q`. -/
def oracleBadArg : List Msg → Plan :=
  fun _ => ⟨"t", ⟨"add", [("a", .str "q"), ("b", .num 1)]⟩⟩

/-! C10: the stop-step invariant of both solve loops. -/

/-- No stop step occurs in the list. -/
def noStop (t : List AFMStep) : Prop := ∀ s ∈ t, s.function ≠ "stop"

/-- The shape of a loop-produced steps suffix: either no stop step at all,
or non-stop steps followed by one final stop step. -/
def stopOnlyAtEnd (t : List AFMStep) : Prop :=
  noStop t ∨ ∃ t₀ th, t = t₀ ++ [stopStep th] ∧ noStop t₀

/-! The `quote` tool of `legal_agent/tools.py`: the clamp logic over a
document's text (the corpus-file loading around it is I/O framing). -/

/-- The hard span cap `MAX_SPAN` of `quote`. -/
def MAX_SPAN : ℤ := 400

/-- The sequential start clamps of `quote`: negative to 0, beyond the
length to the length. -/
def qStart (s n : ℤ) : ℤ :=
  let s1 := if s < 0 then 0 else s
  if s1 > n then n else s1

/-- The sequential end clamps of `quote`: negative to 0, beyond the length
to the length, below the clamped start up to it, span capped at
`MAX_SPAN`. -/
def qEnd (s e n : ℤ) : ℤ :=
  let s2 := qStart s n
  let e1 := if e < 0 then 0 else e
  let e2 := if e1 > n then n else e1
  let e3 := if e2 < s2 then s2 else e2
  if e3 - s2 > MAX_SPAN then s2 + MAX_SPAN else e3

/-- The `quote` clamp-and-slice: `text[start:end]` after the clamps. -/
def quoteClamp (text : String) (s e : ℤ) : String :=
  ⟨(text.data.drop (qStart s text.data.length).toNat).take
     (qEnd s e text.data.length - qStart s text.data.length).toNat⟩

/-- The claim's closed-form clamped start: `min(max(start, 0), n)`. -/
def clampStart (s n : ℤ) : ℤ := min (max s 0) n

/-- The claim's closed-form clamped end: the end clamped into `[0, n]`,
collapsed up to the clamped start, capped at `start' + 400`. -/
def clampEnd (s e n : ℤ) : ℤ :=
  min (max (min (max e 0) n) (clampStart s n)) (clampStart s n + MAX_SPAN)

/-- The claim's description of `quote` as one slice at the closed-form
indices. -/
def quoteSpec (text : String) (s e : ℤ) : String :=
  ⟨(text.data.drop (clampStart s text.data.length).toNat).take
     (clampEnd s e text.data.length - clampStart s text.data.length).toNat⟩

/-! The `retrieve` tool of `legal_agent/tools.py`, over an explicit
document collection (the corpus-directory load is I/O framing). -/

/-- A corpus record `{doc_id, title, text}`. -/
structure Doc where
  doc_id : String
  title : String
  text : String
deriving DecidableEq, Repr

/-- The stopword set `_STOP`. -/
def stopWords : List String :=
  ["the", "a", "an", "and", "or", "but", "if", "in", "on", "to", "of", "for", "by",
   "with", "as", "at", "from", "this", "that", "those", "these", "is", "are", "was",
   "were", "be", "been", "being", "it", "its"]

/-- A character of the token class `[a-z0-9]` (the input is lowercased
first). -/
def isTokChar (c : Char) : Bool := ('a' ≤ c && c ≤ 'z') || c.isDigit

/-- Maximal `[a-z0-9]+` runs (`re.findall(r"[a-z0-9]+", s)`); fuel starts
above the input length and every step consumes at least one character. -/
def alnumRunsAux : Nat → List Char → List String
  | 0, _ => []
  | _ + 1, [] => []
  | fuel + 1, c :: rest =>
    if isTokChar c then
      (⟨c :: rest.takeWhile isTokChar⟩ : String) ::
        alnumRunsAux fuel (rest.dropWhile isTokChar)
    else alnumRunsAux fuel rest

/-- `_tokens`: lowercase, split into `[a-z0-9]+` runs, drop stopwords. -/
def tokens (s : String) : List String :=
  (alnumRunsAux ((pyLower s).data.length + 1) (pyLower s).data).filter
    (fun t => !stopWords.contains t)

/-- `_score(query, text)`: the number of text-token occurrences (with
multiplicity) that lie in the query's token set. -/
def score (query text : String) : ℕ :=
  ((tokens text).filter (fun w => (tokens query).contains w)).length

/-- Stable insertion: `x` passes elements strictly below it and lands
before the first element not below it, so equal keys keep input order. -/
def insertStable {α : Type} (le : α → α → Bool) (x : α) : List α → List α
  | [] => [x]
  | y :: ys => if le y x && !le x y then y :: insertStable le x ys else x :: y :: ys

/-- Stable sort by a boolean total preorder.  Python's `list.sort` is
stable, and a stable sort's output is uniquely determined by the key order
and the input order, which this insertion sort realizes. -/
def stableSort {α : Type} (le : α → α → Bool) : List α → List α
  | [] => []
  | x :: xs => insertStable le x (stableSort le xs)

/-- The sort key of `retrieve`, as a boolean order:
`(-score, (doc_id, title))` ascending — descending score, then `dkey`
ascending. -/
def keyLE (x y : ℕ × Doc) : Bool :=
  decide (y.1 < x.1 ∨ (x.1 = y.1 ∧ (x.2.doc_id < y.2.doc_id ∨
    (x.2.doc_id = y.2.doc_id ∧ (x.2.title < y.2.title ∨ x.2.title = y.2.title)))))

/-- The scored ranking of `retrieve`: score every document over
`title + " " + text`, then `scored.sort(key=lambda x: (-x[0], dkey(x[1])))`. -/
def rankDocs (docs : List Doc) (query : String) : List (ℕ × Doc) :=
  stableSort keyLE (docs.map (fun d => (score query (d.title ++ " " ++ d.text), d)))

/-- `retrieve(query, k)` of `legal_agent/tools.py`:
`out = [d for s, d in scored if s > 0][:k] or [d for _, d in scored[:k]]`,
then the minimal stable fields are re-projected. -/
def retrieve (docs : List Doc) (query : String) (k : ℕ) : List Doc :=
  let scored := rankDocs docs query
  let out := ((scored.filter (fun p => 0 < p.1)).map (·.2)).take k
  (if out.isEmpty then (scored.take k).map (·.2) else out).map
    (fun d => ⟨d.doc_id, d.title, d.text⟩)

/-- The amended claim's description of `retrieve`: over the ranking
(descending score, ties ascending `(doc_id, title)`, stable), return the
positive-scoring documents in rank order truncated to `k`; only when every
document scores zero, return the first `k` of the ranking. -/
def retrieveSpec (docs : List Doc) (query : String) (k : ℕ) : List Doc :=
  if (rankDocs docs query).all (fun p => p.1 == 0) then
    ((rankDocs docs query).take k).map (·.2)
  else (((rankDocs docs query).filter (fun p => 0 < p.1)).map (·.2)).take k

/-! The `HybridMergeTool` of `MHQA_agent/tools.py`, on parsed result lists
(the JSON decoding of the two payloads and the `ToolResult` envelope are
I/O framing around the merge loop). -/

/-- A retrieval result document (`title`/`text`, with `""` defaults). -/
structure MDoc where
  title : String
  text : String
deriving DecidableEq, Repr

/-- The content fingerprint `md5(title + "|" + text)`, modelled by the
hashed text itself (md5 is treated as collision-free, as the dedup
intends). -/
def fingerprint (d : MDoc) : String := d.title ++ "|" ++ d.text

/-- The merge loop of `HybridMergeTool.__call__`: walk the concatenation,
append each document whose fingerprint is unseen, and break as soon as the
merged list has at least `k` entries — the check runs after each document,
so with `k = 0` the first document is appended before the break fires. -/
def hybridLoop (k : ℕ) : List MDoc → List String → List MDoc → List MDoc
  | [], _, merged => merged
  | doc :: rest, seen, merged =>
    let seen' := if seen.contains (fingerprint doc) then seen else fingerprint doc :: seen
    let merged' := if seen.contains (fingerprint doc) then merged else merged ++ [doc]
    if k ≤ merged'.length then merged'
    else hybridLoop k rest seen' merged'

/-- `HybridMergeTool.__call__` on the two parsed document lists. -/
def hybridMerge (b d : List MDoc) (k : ℕ) : List MDoc := hybridLoop k (b ++ d) [] []

/-- The claim's dedup: keep the first occurrence of each fingerprint, in
first-seen order (`seen` carries the fingerprints already emitted). -/
def dedupFP (seen : List String) : List MDoc → List MDoc
  | [] => []
  | x :: xs =>
    if seen.contains (fingerprint x) then dedupFP seen xs
    else x :: dedupFP (fingerprint x :: seen) xs

/-! ## Theorems -/

/-! Helper lemmas about `halfUpInt`. -/

theorem halfUpInt_sub_le (t : ℚ) : |t - (halfUpInt t : ℚ)| ≤ 1/2 := by
  unfold halfUpInt
  split
  · have h1 := Int.floor_le (t + 1/2)
    have h2 := Int.lt_floor_add_one (t + 1/2)
    rw [abs_le]
    constructor <;> linarith
  · have h1 := Int.floor_le (-t + 1/2)
    have h2 := Int.lt_floor_add_one (-t + 1/2)
    rw [abs_le]
    constructor <;> (push_cast; linarith)

theorem halfUpInt_nearest (t : ℚ) (n : ℤ) :
    |t - (halfUpInt t : ℚ)| ≤ |t - (n : ℚ)| := by
  unfold halfUpInt
  split
  · set m := ⌊t + 1/2⌋ with hm
    have h1 := Int.floor_le (t + 1/2)
    have h2 := Int.lt_floor_add_one (t + 1/2)
    rw [← hm] at h1 h2
    rcases le_or_lt n (m - 1) with hn | hn
    · have : (n : ℚ) ≤ (m : ℚ) - 1 := by exact_mod_cast (by push_cast; exact_mod_cast hn : (n:ℚ) ≤ ((m - 1 : ℤ) : ℚ))
      rw [abs_sub_le_iff, abs_of_nonneg (by linarith : (0:ℚ) ≤ t - n)]
      constructor <;> linarith
    · rcases lt_or_le m n with hn' | hn'
      · have : (m : ℚ) + 1 ≤ (n : ℚ) := by exact_mod_cast (by omega : m + 1 ≤ n)
        rw [abs_sub_le_iff, abs_of_nonpos (by linarith : t - (n:ℚ) ≤ 0)]
        constructor <;> linarith
      · have : n = m := by omega
        subst this
        exact le_refl _
  · set m := ⌊-t + 1/2⌋ with hm
    have h1 := Int.floor_le (-t + 1/2)
    have h2 := Int.lt_floor_add_one (-t + 1/2)
    rw [← hm] at h1 h2
    rcases le_or_lt (-n) (m - 1) with hn | hn
    · have : (-n : ℚ) ≤ (m : ℚ) - 1 := by exact_mod_cast (by omega : -n ≤ m - 1)
      rw [abs_sub_le_iff, abs_of_nonpos (by linarith : t - (n:ℚ) ≤ 0)]
      constructor <;> (push_cast; linarith)
    · rcases lt_or_le m (-n) with hn' | hn'
      · have : (m : ℚ) + 1 ≤ (-n : ℚ) := by exact_mod_cast (by omega : m + 1 ≤ -n)
        rw [abs_sub_le_iff, abs_of_nonneg (by linarith : (0:ℚ) ≤ t - n)]
        constructor <;> (push_cast; linarith)
      · have : n = -m := by omega
        subst this
        push_cast
        rw [abs_sub_comm]

theorem halfUpInt_tie (t : ℚ) (h : |t - (halfUpInt t : ℚ)| = 1/2) :
    |(halfUpInt t : ℚ)| = |t| + 1/2 := by
  rcases le_or_lt 0 t with ht | ht
  · rw [halfUpInt, if_pos ht] at h ⊢
    have h1 := Int.floor_le (t + 1/2)
    have h2 := Int.lt_floor_add_one (t + 1/2)
    have hmt : ((⌊t + 1/2⌋ : ℤ) : ℚ) = t + 1/2 := by
      rcases abs_cases (t - ((⌊t + 1/2⌋ : ℤ) : ℚ)) with ⟨he, _⟩ | ⟨he, _⟩ <;>
        rw [he] at h <;> linarith
    rw [abs_of_nonneg (by linarith : (0:ℚ) ≤ ((⌊t + 1/2⌋ : ℤ) : ℚ)), abs_of_nonneg ht, hmt]
  · rw [halfUpInt, if_neg (not_le.mpr ht)] at h ⊢
    have h1 := Int.floor_le (-t + 1/2)
    have h2 := Int.lt_floor_add_one (-t + 1/2)
    push_cast at h ⊢
    have hmt : ((⌊-t + 1/2⌋ : ℤ) : ℚ) = -t + 1/2 := by
      rcases abs_cases (t - (-((⌊-t + 1/2⌋ : ℤ) : ℚ))) with ⟨he, _⟩ | ⟨he, _⟩ <;>
        rw [he] at h <;> linarith
    rw [abs_of_nonpos (by linarith : -(((⌊-t + 1/2⌋ : ℤ) : ℚ)) ≤ 0), abs_of_neg ht]
    linarith

theorem pow10_pos (n : ℤ) : 0 < pow10 n := by
  unfold pow10
  split
  · positivity
  · positivity

theorem pow10_zero : pow10 0 = 1 := by norm_num [pow10]

theorem roundHalfUp_zero (b : ℚ) : roundHalfUp b 0 = (halfUpInt b : ℚ) := by
  simp [roundHalfUp, pow10_zero]

theorem truncInt_zero : truncInt 0 = 0 := by
  unfold truncInt
  rw [if_pos le_rfl]
  norm_num

theorem halfUpInt_three : halfUpInt (3 : ℚ) = 3 := by
  unfold halfUpInt
  rw [if_pos (by norm_num)]
  norm_num

theorem halfUpInt_five_halves : halfUpInt (5/2 : ℚ) = 3 := by
  unfold halfUpInt
  rw [if_pos (by norm_num)]
  norm_num

theorem halfUpInt_neg_five_halves : halfUpInt (-(5/2) : ℚ) = -3 := by
  unfold halfUpInt
  rw [if_neg (by norm_num)]
  norm_num

theorem roundTool_pos_tie : roundTool (5/2) 0 = 3 := by
  rw [roundTool, truncInt_zero, roundHalfUp_zero, halfUpInt_five_halves]
  norm_num

theorem roundTool_neg_tie : roundTool (-(5/2)) 0 = -3 := by
  rw [roundTool, truncInt_zero, roundHalfUp_zero, halfUpInt_neg_five_halves]
  norm_num

/-- C4 (amended): `divide` raises `DomainError` iff the divisor is zero,
`sqrt` iff the operand is negative, and `power` iff the base is negative and
the exponent is farther than `1e-12` from every integer (the code's
tolerance check); `power(-2, 3) = -8` given that float power evaluates
`(-2.0) ** 3.0` to `-8.0`. -/
theorem power_divide_sqrt_domain (fp : ℚ → ℚ → ℚ) (hfp : fp (-2) 3 = -8) :
    (∀ a b : ℚ, divide a b = .error (.valueError "divide: division by zero") ↔ b = 0) ∧
    (∀ x : ℚ, sqrtTool fp x = .error (.valueError "sqrt: domain error (x < 0)") ↔ x < 0) ∧
    (∀ a b : ℚ,
      power fp a b = .error (.valueError "power: negative base requires integer exponent") ↔
        (a < 0 ∧ ∀ n : ℤ, powTol < |b - (n : ℚ)|)) ∧
    power fp (-2) 3 = .ok (-8) := by
  refine ⟨?_, ?_, ?_, ?_⟩
  · intro a b
    unfold divide
    split
    · simp [*]
    · simp [*]
  · intro x
    unfold sqrtTool
    split
    · simp [*]
    · simp
      linarith [not_lt.mp (by assumption : ¬ x < 0)]
  · intro a b
    unfold power
    rw [roundHalfUp_zero]
    split
    · rename_i h
      constructor
      · intro _
        exact ⟨h.1, fun n => lt_of_lt_of_le h.2 (halfUpInt_nearest b n)⟩
      · intro _
        rfl
    · rename_i h
      constructor
      · intro hcontra
        simp at hcontra
      · intro hc
        exact absurd ⟨hc.1, hc.2 (halfUpInt b)⟩ h
  · have hcond : ¬ ((-2 : ℚ) < 0 ∧ powTol < |(3 : ℚ) - roundHalfUp 3 0|) := by
      rw [roundHalfUp_zero, halfUpInt_three]
      intro hc
      have := hc.2
      norm_num [powTol] at this
    rw [power, if_neg hcond, hfp]

/-- C4 counterexample to the claim as stated: the exponent `3 + 1e-13` is not
an integer, the base `-2` is negative, yet `power` raises no `DomainError`
(the code only rejects exponents farther than `1e-12` from an integer). -/
theorem power_tolerance_counterexample :
    (¬ ∃ n : ℤ, ((3 : ℚ) + 1 / 10 ^ (13 : ℕ)) = (n : ℚ)) ∧
    power fpowTriv (-2) (3 + 1 / 10 ^ (13 : ℕ)) = .ok 0 := by
  constructor
  · rintro ⟨n, hn⟩
    have h1 : (3 : ℚ) < (n : ℚ) := by rw [← hn]; norm_num
    have h2 : (n : ℚ) < 4 := by rw [← hn]; norm_num
    have h1' : (3 : ℤ) < n := by exact_mod_cast h1
    have h2' : n < (4 : ℤ) := by exact_mod_cast h2
    omega
  · have hfl : halfUpInt ((3 : ℚ) + 1 / 10 ^ (13 : ℕ)) = 3 := by
      unfold halfUpInt
      rw [if_pos (by norm_num)]
      rw [Int.floor_eq_iff]
      norm_num
    have hr : roundHalfUp (3 + 1 / 10 ^ (13 : ℕ)) 0 = (3 : ℚ) := by
      rw [roundHalfUp_zero, hfl]
      norm_num
    rw [power, if_neg]
    · rfl
    · rw [hr]
      intro hc
      have h2 := hc.2
      rw [show |(3 : ℚ) + 1 / 10 ^ (13:ℕ) - 3| = 1 / 10 ^ (13:ℕ) by
        rw [show (3 : ℚ) + 1 / 10 ^ (13:ℕ) - 3 = 1 / 10 ^ (13:ℕ) by ring]
        rw [abs_of_pos]
        norm_num] at h2
      norm_num [powTol] at h2

/-- Witness instantiating `power_divide_sqrt_domain` at concrete inputs:
`divide(1, 0)`, `sqrt(-1)` and `power(-2, 0.5)` raise `DomainError`, and
`power(-2, 3) = -8`. -/
theorem power_divide_sqrt_domain_witness :
    divide 1 0 = .error (.valueError "divide: division by zero") ∧
    sqrtTool (fun _ _ => (-8 : ℚ)) (-1) = .error (.valueError "sqrt: domain error (x < 0)") ∧
    power (fun _ _ => (-8 : ℚ)) (-2) (1/2) =
      .error (.valueError "power: negative base requires integer exponent") ∧
    power (fun _ _ => (-8 : ℚ)) (-2) 3 = .ok (-8) := by
  obtain ⟨hdiv, hsqrt, hpow, hval⟩ := power_divide_sqrt_domain (fun _ _ => (-8 : ℚ)) rfl
  refine ⟨(hdiv 1 0).mpr rfl, (hsqrt (-1)).mpr (by norm_num), ?_, hval⟩
  refine (hpow (-2) (1/2)).mpr ⟨by norm_num, ?_⟩
  intro n
  have hn : ((1:ℚ)/2 ≤ |1/2 - (n : ℚ)|) := by
    rcases le_or_lt (n : ℚ) 0 with hn0 | hn0
    · rw [abs_of_nonneg (by linarith)]
      linarith
    · have h1 : (1 : ℚ) ≤ (n : ℚ) := by exact_mod_cast (by exact_mod_cast hn0 : 0 < n)
      rw [abs_of_nonpos (by linarith)]
      linarith
  calc powTol < 1/2 := by norm_num [powTol]
    _ ≤ _ := hn

/-- C6: the `round` tool quantizes to a multiple of `10^(-ndigits)`, lands
within half a unit of the input, and breaks exact ties away from zero
(magnitude grows by exactly half a unit); in particular
`round(2.5, 0) = 3` and `round(-2.5, 0) = -3`. -/
theorem round_half_away_from_zero :
    (∀ (x : ℚ) (nd : ℤ),
      (∃ m : ℤ, roundHalfUp x nd = (m : ℚ) / pow10 nd) ∧
      |x - roundHalfUp x nd| ≤ 1 / (2 * pow10 nd) ∧
      (|x - roundHalfUp x nd| = 1 / (2 * pow10 nd) →
        |roundHalfUp x nd| = |x| + 1 / (2 * pow10 nd))) ∧
    roundTool (5/2) 0 = 3 ∧ roundTool (-5/2) 0 = -3 := by
  have hneg : (-5/2 : ℚ) = -(5/2) := by norm_num
  refine ⟨?_, roundTool_pos_tie, by rw [hneg]; exact roundTool_neg_tie⟩
  intro x nd
  have hp : 0 < pow10 nd := pow10_pos nd
  have hp' : pow10 nd ≠ 0 := ne_of_gt hp
  set p := pow10 nd with hpdef
  set t := x * p with htdef
  set m := halfUpInt t with hmdef
  have hxr : x - roundHalfUp x nd = (t - (m : ℚ)) / p := by
    rw [roundHalfUp, ← htdef, ← hmdef]
    field_simp
  have habs : |x - roundHalfUp x nd| = |t - (m : ℚ)| / p := by
    rw [hxr, abs_div, abs_of_pos hp]
  refine ⟨⟨m, rfl⟩, ?_, ?_⟩
  · rw [habs]
    have hb := halfUpInt_sub_le t
    rw [← hmdef] at hb
    rw [div_le_iff₀ hp, show 1 / (2 * p) * p = 1/2 by field_simp; ring]
    exact hb
  · intro htie
    rw [habs] at htie
    have htie2 : |t - (m : ℚ)| = 1/2 := by
      have h2 : |t - (m : ℚ)| = p * (1 / (2 * p)) := by
        rw [← htie]
        field_simp
      rw [h2]
      field_simp
      ring
    have hmabs := halfUpInt_tie t (by rw [← hmdef]; exact htie2)
    rw [← hmdef] at hmabs
    have hr : roundHalfUp x nd = (m : ℚ) / p := rfl
    rw [hr, abs_div, abs_of_pos hp, hmabs]
    have hxt : |x| = |t| / p := by
      rw [htdef, abs_mul, abs_of_pos hp]
      field_simp
    rw [hxt]
    field_simp
    ring

/-- Witness for `round_half_away_from_zero` at `x = 5/2`, `nd = 0`: the tie
case fires and the rounded magnitude exceeds the input's by exactly `1/2`. -/
theorem round_half_away_from_zero_witness :
    |roundHalfUp (5/2 : ℚ) 0| = |(5/2 : ℚ)| + 1 / (2 * pow10 0) := by
  refine (round_half_away_from_zero.1 (5/2) 0).2.2 ?_
  rw [roundHalfUp_zero, halfUpInt_five_halves, pow10_zero]
  norm_num

/-- C5: seeding the environment from question text `"x=4, y=-3.5"` yields
exactly `x = 4.0` and `y = -3.5`; `resolve("x")` returns 4; `resolve("z")`
fails with `UnresolvableArgument`; resolving the carry symbol `r` before
any step has produced a result fails with the unbound-carry error. -/
theorem env_seed_and_resolve :
    extractEnvVars "x=4, y=-3.5" = [("x", (4 : ℚ)), ("y", mkRat (-7) 2)] ∧
    resolveArgM (.str "x") (extractEnvVars "x=4, y=-3.5") none = .ok 4 ∧
    resolveArgM (.str "z") (extractEnvVars "x=4, y=-3.5") none =
      .error (.valueError "Unresolvable arg: 'z'") ∧
    resolveArgM (.str "r") (extractEnvVars "x=4, y=-3.5") none =
      .error (.valueError "r is not available before the first step") := by
  exact ⟨by decide, rfl, rfl, rfl⟩

theorem finalizeAnswer_first_ok (finOracle : List Msg → String) (history : List Msg)
    (a : String)
    (ha : extractFinalAnswer (pyStrip (finOracle (history ++ [⟨"user", promptFinal1⟩]))) = .ok a) :
    finalizeAnswer finOracle history = (.ok a, 1) := by
  unfold finalizeAnswer
  rw [ha]

/-- C3: finalization makes at most two oracle calls; when the first
response extracts it returns that answer after exactly one call; otherwise
the outcome is exactly the second response's extraction after exactly two
calls — so two malformed responses end in `FinalizationError` with no third
call, and a retry answering `<final>7</final>` yields `"7"` (the last
conjunct evaluates the extractor on that wrapped text). -/
theorem finalize_retry_bound (finOracle : List Msg → String) (history : List Msg) :
    (finalizeAnswer finOracle history).2 ≤ 2 ∧
    (∀ a, extractFinalAnswer (pyStrip (finOracle (history ++ [⟨"user", promptFinal1⟩]))) = .ok a →
      finalizeAnswer finOracle history = (.ok a, 1)) ∧
    ((extractFinalAnswer (pyStrip (finOracle (history ++ [⟨"user", promptFinal1⟩])))).isOk = false →
      finalizeAnswer finOracle history =
        (extractFinalAnswer (pyStrip (finOracle (history ++ [⟨"user", promptFinalRetry⟩]))), 2)) ∧
    extractFinalAnswer "<final>7</final>" = .ok "7" := by
  refine ⟨?_, ?_, ?_, rfl⟩
  · unfold finalizeAnswer
    cases hx : extractFinalAnswer (pyStrip (finOracle (history ++ [⟨"user", promptFinal1⟩]))) <;>
      simp [hx]
  · intro a ha
    exact finalizeAnswer_first_ok finOracle history a ha
  · intro h
    cases hx : extractFinalAnswer (pyStrip (finOracle (history ++ [⟨"user", promptFinal1⟩]))) with
    | ok a => rw [hx] at h; simp [Except.isOk, Except.toBool] at h
    | error e =>
      unfold finalizeAnswer
      rw [hx]

set_option maxRecDepth 8000 in
/-- Witness applying `finalize_retry_bound`: a malformed first response and
a wrapped retry give `"7"` in two calls; two malformed responses give
`FinalizationError` in two calls and no third; a well-formed first response
finishes in one call. -/
theorem finalize_retry_bound_witness :
    finalizeAnswer finODemo [] = (.ok "7", 2) ∧
    finalizeAnswer (fun _ => "12") [] = (.error (.valueError finalTagMsg), 2) ∧
    finalizeAnswer (fun _ => "<final>7</final>") [] = (.ok "7", 1) := by
  refine ⟨?_, ?_, ?_⟩
  · have h := (finalize_retry_bound finODemo []).2.2.1 (by decide)
    rw [h]
    decide
  · have h := (finalize_retry_bound (fun _ => "12") []).2.2.1 (by decide)
    rw [h]
    decide
  · exact (finalize_retry_bound (fun _ => "<final>7</final>") []).2.1 "7" (by decide)

theorem solveLoop_full_budget (fp : ℚ → ℚ → ℚ) (oracle : List Msg → Plan)
    (hplan : ∀ h carry, stepSucceeds fp (oracle h) carry) :
    ∀ (fuel : ℕ) (history : List Msg) (steps : List AFMStep) (carry : Option ℚ),
      ∃ tail h',
        solveLoop fp oracle fuel history steps carry = .ok (steps ++ tail, h') ∧
        tail.length = fuel ∧ ∀ s ∈ tail, s.function ≠ "stop" := by
  intro fuel
  induction fuel with
  | zero =>
    intro h steps carry
    exact ⟨[], h, by simp [solveLoop], rfl, by simp⟩
  | succ n ih =>
    intro h steps carry
    obtain ⟨hv, hns, args, call, result, hnorm, hrun⟩ := hplan h carry
    have hvb : (!validNames.contains (normName (oracle h))) = false := by
      rw [hv]; rfl
    have hnsb : (normName (oracle h) == "stop") = false :=
      beq_eq_false_iff_ne.mpr hns
    obtain ⟨tail, h', heq, hlen, hnostop⟩ :=
      ih (h ++
            [⟨"assistant", dumpPlan (oracle h)⟩,
             ⟨"system", "Observation: " ++ takeStr 2000 (dumpResult result)⟩])
         (steps ++ [⟨normName (oracle h), (oracle h).thought, call, result⟩])
         (carryUpdate result carry)
    refine ⟨⟨normName (oracle h), (oracle h).thought, call, result⟩ :: tail, h', ?_, ?_, ?_⟩
    · rw [solveLoop]
      simp only [hvb, hnsb, Bool.false_eq_true, if_false, hnorm, hrun]
      rw [heq]
      simp
    · simp [hlen]
    · intro s hs
      rcases List.mem_cons.mp hs with hs1 | hs2
      · subst hs1
        exact hns
      · exact hnostop s hs2

/-- C1: with step budget `N ≥ 1` and an oracle whose every response is a
valid, successfully executing non-stop action, `solve` records exactly `N`
steps (none of them `stop`, hence no (N+1)-th step), then proceeds directly
to finalization and succeeds: exhausting the step budget without a stop
action is not an error. -/
theorem solve_exhausts_budget (fp : ℚ → ℚ → ℚ) (oracle : List Msg → Plan)
    (finOracle : List Msg → String) (question : String) (N : ℕ)
    (_hN : 1 ≤ N)
    (hplan : ∀ h carry, stepSucceeds fp (oracle h) carry)
    (hfin : ∀ h, ∃ a,
      extractFinalAnswer (pyStrip (finOracle (h ++ [⟨"user", promptFinal1⟩]))) = .ok a) :
    ∃ steps ans, solve fp oracle finOracle question N = .ok (steps, ans) ∧
      steps.length = N ∧ ∀ s ∈ steps, s.function ≠ "stop" := by
  obtain ⟨tail, h', heq, hlen, hns⟩ :=
    solveLoop_full_budget fp oracle hplan N
      [⟨"system", systemPromptText⟩, ⟨"user", "Question: " ++ question⟩] [] none
  obtain ⟨a, ha⟩ := hfin h'
  have hfin' := finalizeAnswer_first_ok finOracle h' a ha
  refine ⟨tail, a, ?_, by simpa using hlen, by simpa using hns⟩
  unfold solve
  rw [heq]
  dsimp only [List.nil_append]
  rw [hfin']

set_option maxRecDepth 8000 in
/-- Witness applying `solve_exhausts_budget` with budget 3 and an oracle
that always proposes `add(1, 2)`: the solve returns, records exactly 3
steps, and none is a stop step. -/
theorem solve_exhausts_budget_witness :
    ∃ steps ans,
      solve fpowTriv oracleAdd (fun _ => "<final>0</final>") "q" 3 = .ok (steps, ans) ∧
      steps.length = 3 ∧ ∀ s ∈ steps, s.function ≠ "stop" := by
  refine solve_exhausts_budget fpowTriv oracleAdd (fun _ => "<final>0</final>") "q" 3
    (by norm_num) ?_ ?_
  · intro h carry
    exact ⟨rfl, (by decide : ("add" : String) ≠ "stop"),
      [("a", (1 : ℚ)), ("b", (2 : ℚ))], ⟨"add", [("a", 1), ("b", 2)]⟩, some (addTool 1 2),
      rfl, rfl⟩
  · intro h
    exact ⟨"0", (by decide : extractFinalAnswer (pyStrip "<final>0</final>") = .ok "0")⟩

/-- C2 counterexample to the claim as stated: a `DomainError` raised by the
tool registry during the EXECUTING phase (divide-by-zero) is not turned
into a corrective observation — it propagates and aborts `solve` with the
exception (so the loop neither continues nor records the trajectory). -/
theorem exec_error_aborts_counterexample :
    solveM fpowTriv oracleDivZero (fun _ => "") "q" 3 =
      .error (.valueError "divide: division by zero") := by
  decide

/-- C2 (amended): in the lenient `Math_agent` loop, only argument
resolution is locally recovered — on a resolution `ValueError` the plan
JSON and a corrective error observation are appended, no step is recorded,
and the loop continues with one budget iteration consumed; whereas a
`DomainError`/`UnknownTool` raised by the tool registry during EXECUTING
propagates and aborts the solve (the strict `math_agent` loop catches
nothing at all). -/
theorem exec_error_vs_resolve_error (fp : ℚ → ℚ → ℚ) (oracle : List Msg → Plan)
    (fuel : ℕ) (history : List Msg) (steps : List AFMStep)
    (env : List (String × ℚ)) (last : Option ℚ) :
    (∀ e, validNamesM.contains (normName (oracle history)) = true →
      requireArgsForAction (normName (oracle history)) (oracle history).action.args = .ok () →
      (normName (oracle history) == "stop") = false →
      resolveAll (oracle history).action.args env last = .error e →
      solveLoopM fp oracle (fuel + 1) history steps env last =
        solveLoopM fp oracle fuel
          (history ++
            [⟨"assistant", dumpPlan (oracle history)⟩,
             ⟨"system", "Error: " ++ errText e ++
               ". Use only numeric literals, question-defined variables, or r."⟩])
          steps env last) ∧
    (∀ args e, validNamesM.contains (normName (oracle history)) = true →
      requireArgsForAction (normName (oracle history)) (oracle history).action.args = .ok () →
      (normName (oracle history) == "stop") = false →
      resolveAll (oracle history).action.args env last = .ok args →
      runToolM fp (normName (oracle history)) args = .error e →
      solveLoopM fp oracle (fuel + 1) history steps env last = .error e) := by
  constructor
  · intro e hv hreq hns hres
    rw [solveLoopM]
    simp only [hv, Bool.not_true, Bool.false_eq_true, if_false, hreq, hns, hres]
  · intro args e hv hreq hns hres hrun
    rw [solveLoopM]
    simp only [hv, Bool.not_true, Bool.false_eq_true, if_false, hreq, hns, hres, hrun]

/-- Witness applying `exec_error_vs_resolve_error` at concrete inputs: the
unresolvable argument `q` consumes the iteration and appends the corrective
observation with no step recorded, while divide-by-zero aborts the loop
with the `DomainError`. -/
theorem exec_error_vs_resolve_error_witness :
    solveLoopM fpowTriv oracleBadArg 1 [] [] [] none =
      .ok ([], [⟨"assistant", dumpPlan (oracleBadArg [])⟩,
                ⟨"system", "Error: Unresolvable arg: 'q'. Use only numeric literals, question-defined variables, or r."⟩]) ∧
    solveLoopM fpowTriv oracleDivZero 1 [] [] [] none =
      .error (.valueError "divide: division by zero") := by
  constructor
  · have h := (exec_error_vs_resolve_error fpowTriv oracleBadArg 0 [] [] [] none).1
      (.valueError "Unresolvable arg: 'q'") (by decide) (by decide) (by decide) (by decide)
    rw [h]
    decide
  · exact (exec_error_vs_resolve_error fpowTriv oracleDivZero 0 [] [] [] none).2
      [("a", 1), ("b", 0)] (.valueError "divide: division by zero")
      (by decide) (by decide) (by decide) (by decide) (by decide)

theorem stopOnlyAtEnd_nil : stopOnlyAtEnd [] := by
  left
  intro s hs
  simp at hs

theorem stopOnlyAtEnd_cons {s : AFMStep} {t : List AFMStep}
    (hs : s.function ≠ "stop") (ht : stopOnlyAtEnd t) : stopOnlyAtEnd (s :: t) := by
  rcases ht with hn | ⟨t₀, th, hteq, hn⟩
  · left
    intro x hx
    rcases List.mem_cons.mp hx with h1 | h2
    · subst h1
      exact hs
    · exact hn x h2
  · refine Or.inr ⟨s :: t₀, th, by rw [hteq]; rfl, ?_⟩
    intro x hx
    rcases List.mem_cons.mp hx with h1 | h2
    · subst h1
      exact hs
    · exact hn x h2

theorem solveLoop_stop_shape (fp : ℚ → ℚ → ℚ) (oracle : List Msg → Plan) :
    ∀ (fuel : ℕ) (history : List Msg) (steps : List AFMStep) (carry : Option ℚ)
      (steps' : List AFMStep) (h' : List Msg),
      solveLoop fp oracle fuel history steps carry = .ok (steps', h') →
      ∃ t, steps' = steps ++ t ∧ stopOnlyAtEnd t := by
  intro fuel
  induction fuel with
  | zero =>
    intro h steps carry steps' h' heq
    simp only [solveLoop, Except.ok.injEq, Prod.mk.injEq] at heq
    exact ⟨[], by rw [← heq.1]; simp, stopOnlyAtEnd_nil⟩
  | succ n ih =>
    intro h steps carry steps' h' heq
    rw [solveLoop] at heq
    cases hv : validNames.contains (normName (oracle h)) with
    | false =>
      rw [if_pos (by rw [hv]; rfl : (!validNames.contains (normName (oracle h))) = true)] at heq
      exact Except.noConfusion heq
    | true =>
      rw [if_neg (by rw [hv]; simp :
        ¬ (!validNames.contains (normName (oracle h))) = true)] at heq
      cases hs : normName (oracle h) == "stop" with
      | true =>
        rw [if_pos hs] at heq
        simp only [Except.ok.injEq, Prod.mk.injEq] at heq
        refine ⟨[stopStep (oracle h).thought], heq.1.symm,
          Or.inr ⟨[], (oracle h).thought, rfl, ?_⟩⟩
        intro s hsm
        simp at hsm
      | false =>
        rw [if_neg (by rw [hs]; simp : ¬ (normName (oracle h) == "stop") = true)] at heq
        cases hn : normalizeArgs (normName (oracle h)) (oracle h).action.args carry with
        | error e =>
          simp [hn] at heq
        | ok args =>
          simp only [hn] at heq
          cases hr : runTool fp (normName (oracle h)) args with
          | error e =>
            simp [hr] at heq
          | ok pr =>
            obtain ⟨call, result⟩ := pr
            simp only [hr] at heq
            obtain ⟨t, hte, hsh⟩ := ih _ _ _ _ _ heq
            refine ⟨⟨normName (oracle h), (oracle h).thought, call, result⟩ :: t, ?_, ?_⟩
            · rw [hte]
              simp
            · exact stopOnlyAtEnd_cons (by simpa using hs) hsh

theorem solveLoopM_stop_shape (fp : ℚ → ℚ → ℚ) (oracle : List Msg → Plan) :
    ∀ (fuel : ℕ) (history : List Msg) (steps : List AFMStep)
      (env : List (String × ℚ)) (last : Option ℚ)
      (steps' : List AFMStep) (h' : List Msg),
      solveLoopM fp oracle fuel history steps env last = .ok (steps', h') →
      ∃ t, steps' = steps ++ t ∧ stopOnlyAtEnd t := by
  intro fuel
  induction fuel with
  | zero =>
    intro h steps env last steps' h' heq
    simp only [solveLoopM, Except.ok.injEq, Prod.mk.injEq] at heq
    exact ⟨[], by rw [← heq.1]; simp, stopOnlyAtEnd_nil⟩
  | succ n ih =>
    intro h steps env last steps' h' heq
    rw [solveLoopM] at heq
    cases hv : validNamesM.contains (normName (oracle h)) with
    | false =>
      rw [if_pos (by rw [hv]; rfl : (!validNamesM.contains (normName (oracle h))) = true)] at heq
      exact Except.noConfusion heq
    | true =>
      rw [if_neg (by rw [hv]; simp :
        ¬ (!validNamesM.contains (normName (oracle h))) = true)] at heq
      cases hreq : requireArgsForAction (normName (oracle h)) (oracle h).action.args with
      | error e =>
        rw [hreq] at heq
        exact Except.noConfusion heq
      | ok u =>
        rw [hreq] at heq
        cases hs : normName (oracle h) == "stop" with
        | true =>
          rw [if_pos hs] at heq
          simp only [Except.ok.injEq, Prod.mk.injEq] at heq
          refine ⟨[stopStep (oracle h).thought], heq.1.symm,
            Or.inr ⟨[], (oracle h).thought, rfl, ?_⟩⟩
          intro s hsm
          simp at hsm
        | false =>
          rw [if_neg (by rw [hs]; simp : ¬ (normName (oracle h) == "stop") = true)] at heq
          cases hres : resolveAll (oracle h).action.args env last with
          | error e =>
            simp only [hres] at heq
            exact ih _ _ _ _ _ _ heq
          | ok args =>
            simp only [hres] at heq
            cases hr : runToolM fp (normName (oracle h)) args with
            | error e =>
              simp [hr] at heq
            | ok pr =>
              obtain ⟨call, result⟩ := pr
              simp only [hr] at heq
              obtain ⟨t, hte, hsh⟩ := ih _ _ _ _ _ _ heq
              refine ⟨⟨normName (oracle h), (oracle h).thought, call, result⟩ :: t, ?_, ?_⟩
              · rw [hte]
                simp
              · exact stopOnlyAtEnd_cons (by simpa using hs) hsh

theorem stopOnlyAtEnd_props {steps : List AFMStep} (hsh : stopOnlyAtEnd steps) :
    (steps.filter (fun s => s.function == "stop")).length ≤ 1 ∧
    (∀ s ∈ steps.dropLast, s.function ≠ "stop") ∧
    (∀ s ∈ steps, s.function = "stop" → s.tool_result = none) := by
  rcases hsh with hn | ⟨t₀, th, hteq, hn⟩
  · refine ⟨?_, ?_, ?_⟩
    · have hf : steps.filter (fun s => s.function == "stop") = [] :=
        List.filter_eq_nil_iff.mpr (fun s hs => by simpa using hn s hs)
      simp [hf]
    · intro s hs
      exact hn s (List.dropLast_subset _ hs)
    · intro s hs hstop
      exact absurd hstop (hn s hs)
  · subst hteq
    refine ⟨?_, ?_, ?_⟩
    · rw [List.filter_append]
      have h0 : t₀.filter (fun s => s.function == "stop") = [] :=
        List.filter_eq_nil_iff.mpr (fun s hs => by simpa using hn s hs)
      simp [h0, stopStep]
    · intro s hs
      rw [List.dropLast_concat] at hs
      exact hn s hs
    · intro s hs hstop
      rcases List.mem_append.mp hs with h1 | h2
      · exact absurd hstop (hn s h1)
      · have heq2 : s = stopStep th := by simpa using h2
        rw [heq2]
        rfl

/-- C10: any steps list returned by either `solve` contains at most one
stop step; no stop step occurs before the last position; and every stop
step carries no tool result — so a stop step, when present, is the final
element and nothing is appended after it. -/
theorem stop_step_invariant :
    (∀ (fp : ℚ → ℚ → ℚ) (oracle : List Msg → Plan) (finOracle : List Msg → String)
       (question : String) (maxSteps : ℕ) (steps : List AFMStep) (ans : String),
      solve fp oracle finOracle question maxSteps = .ok (steps, ans) →
      (steps.filter (fun s => s.function == "stop")).length ≤ 1 ∧
      (∀ s ∈ steps.dropLast, s.function ≠ "stop") ∧
      (∀ s ∈ steps, s.function = "stop" → s.tool_result = none)) ∧
    (∀ (fp : ℚ → ℚ → ℚ) (oracle : List Msg → Plan) (finOracle : List Msg → String)
       (question : String) (maxSteps : ℕ) (steps : List AFMStep) (ans : String),
      solveM fp oracle finOracle question maxSteps = .ok (steps, ans) →
      (steps.filter (fun s => s.function == "stop")).length ≤ 1 ∧
      (∀ s ∈ steps.dropLast, s.function ≠ "stop") ∧
      (∀ s ∈ steps, s.function = "stop" → s.tool_result = none)) := by
  constructor
  · intro fp oracle finOracle question maxSteps steps ans heq
    unfold solve at heq
    cases hloop : solveLoop fp oracle maxSteps
        [⟨"system", systemPromptText⟩, ⟨"user", "Question: " ++ question⟩] [] none with
    | error e => rw [hloop] at heq; simp at heq
    | ok p =>
      obtain ⟨steps₀, hist⟩ := p
      rw [hloop] at heq
      cases hfin : (finalizeAnswer finOracle hist).1 with
      | error e => simp [hfin] at heq
      | ok a =>
        simp only [hfin, Except.ok.injEq, Prod.mk.injEq] at heq
        obtain ⟨t, hte, hsh⟩ := solveLoop_stop_shape fp oracle _ _ _ _ _ _ hloop
        have hst : steps = t := by rw [← heq.1, hte]; simp
        rw [hst]
        exact stopOnlyAtEnd_props hsh
  · intro fp oracle finOracle question maxSteps steps ans heq
    unfold solveM at heq
    cases hloop : solveLoopM fp oracle maxSteps [⟨"user", "Question: " ++ question⟩] []
        (extractEnvVars question) none with
    | error e => rw [hloop] at heq; simp at heq
    | ok p =>
      obtain ⟨steps₀, hist⟩ := p
      rw [hloop] at heq
      simp only [Except.ok.injEq, Prod.mk.injEq] at heq
      obtain ⟨t, hte, hsh⟩ := solveLoopM_stop_shape fp oracle _ _ _ _ _ _ _ hloop
      have hst : steps = t := by rw [← heq.1, hte]; simp
      rw [hst]
      exact stopOnlyAtEnd_props hsh

set_option maxRecDepth 8000 in
/-- Witness applying `stop_step_invariant` to a concrete run in which the
oracle stops immediately: the returned single-step list satisfies every
conjunct. -/
theorem stop_step_invariant_witness :
    (([stopStep "t"] : List AFMStep).filter (fun s => s.function == "stop")).length ≤ 1 ∧
    (∀ s ∈ ([stopStep "t"] : List AFMStep).dropLast, s.function ≠ "stop") ∧
    (∀ s ∈ ([stopStep "t"] : List AFMStep), s.function = "stop" → s.tool_result = none) := by
  exact stop_step_invariant.1 fpowTriv (fun _ => ⟨"t", ⟨"stop", []⟩⟩)
    (fun _ => "<final>0</final>") "q" 3 [stopStep "t"] "0" (by decide)

theorem qStart_eq_clampStart (s n : ℤ) (hn : 0 ≤ n) : qStart s n = clampStart s n := by
  unfold qStart clampStart
  dsimp only
  split_ifs <;> omega

theorem qEnd_eq_clampEnd (s e n : ℤ) (hn : 0 ≤ n) : qEnd s e n = clampEnd s e n := by
  unfold qEnd qStart clampEnd clampStart MAX_SPAN
  dsimp only
  split_ifs <;> omega

theorem qEnd_span (s e n : ℤ) :
    0 ≤ qEnd s e n - qStart s n ∧ qEnd s e n - qStart s n ≤ MAX_SPAN := by
  unfold qEnd qStart MAX_SPAN
  dsimp only
  split_ifs <;> omega

/-- C9: `quote` computes exactly the claim's clamped slice — negative
bounds clamp to 0, bounds beyond the text length clamp to the length,
`end < start` collapses to the start, the span is capped at 400 — and the
result is a contiguous substring of the document text of length at most
400. -/
theorem quote_clamped_substring (text : String) (s e : ℤ) :
    quoteClamp text s e = quoteSpec text s e ∧
    (quoteClamp text s e).data.length ≤ 400 ∧
    ∃ pre post, text.data = pre ++ (quoteClamp text s e).data ++ post := by
  have hn : (0 : ℤ) ≤ text.data.length := Int.ofNat_nonneg _
  refine ⟨?_, ?_, ?_⟩
  · unfold quoteClamp quoteSpec
    rw [qStart_eq_clampStart _ _ hn, qEnd_eq_clampEnd _ _ _ hn]
  · unfold quoteClamp
    have hspan := (qEnd_span s e text.data.length).2
    have htn : (qEnd s e text.data.length - qStart s text.data.length).toNat ≤ 400 := by
      rw [Int.toNat_le]
      exact le_trans hspan (by norm_num [MAX_SPAN])
    calc ((text.data.drop (qStart s text.data.length).toNat).take
            (qEnd s e text.data.length - qStart s text.data.length).toNat).length
        ≤ (qEnd s e text.data.length - qStart s text.data.length).toNat :=
          List.length_take_le _ _
      _ ≤ 400 := htn
  · refine ⟨text.data.take (qStart s text.data.length).toNat,
      (text.data.drop (qStart s text.data.length).toNat).drop
        (qEnd s e text.data.length - qStart s text.data.length).toNat, ?_⟩
    unfold quoteClamp
    rw [List.append_assoc, List.take_append_drop, List.take_append_drop]

theorem insertStable_perm {α : Type} (le : α → α → Bool) (x : α) :
    ∀ l : List α, (insertStable le x l).Perm (x :: l) := by
  intro l
  induction l with
  | nil => simp [insertStable]
  | cons y ys ihm =>
    rw [insertStable]
    split
    · exact (ihm.cons y).trans (List.Perm.swap x y ys)
    · exact List.Perm.refl _

theorem stableSort_perm {α : Type} (le : α → α → Bool) (l : List α) :
    (stableSort le l).Perm l := by
  induction l with
  | nil => simp [stableSort]
  | cons x xs ih =>
    rw [stableSort]
    exact (insertStable_perm le x (stableSort le xs)).trans (ih.cons x)

theorem insertStable_pairwise {α : Type} (le : α → α → Bool)
    (htot : ∀ a b, (le a b || le b a) = true)
    (htr : ∀ {a b c}, le a b = true → le b c = true → le a c = true)
    (x : α) :
    ∀ l : List α, l.Pairwise (fun a b => le a b = true) →
      (insertStable le x l).Pairwise (fun a b => le a b = true) := by
  intro l
  induction l with
  | nil =>
    intro _
    simp [insertStable]
  | cons y ys ih =>
    intro hl
    rw [List.pairwise_cons] at hl
    obtain ⟨hy, hys⟩ := hl
    rw [insertStable]
    split
    · rename_i hcond
      have hyx : le y x = true := by
        have := hcond
        simp only [Bool.and_eq_true] at this
        exact this.1
      refine List.pairwise_cons.mpr ⟨?_, ih hys⟩
      intro z hz
      have hmem : z ∈ x :: ys := (insertStable_perm le x ys).mem_iff.mp hz
      rcases List.mem_cons.mp hmem with rfl | hzy
      · exact hyx
      · exact hy z hzy
    · rename_i hcond
      have hxy : le x y = true := by
        cases hb : le x y with
        | true => rfl
        | false =>
          have hyx : le y x = true := by
            have := htot x y
            rw [hb] at this
            simpa using this
          exact absurd (by rw [hyx, hb]; rfl : (le y x && !le x y) = true) hcond
      refine List.pairwise_cons.mpr ⟨?_, List.pairwise_cons.mpr ⟨hy, hys⟩⟩
      intro z hz
      rcases List.mem_cons.mp hz with rfl | hzy
      · exact hxy
      · exact htr hxy (hy z hzy)

theorem stableSort_pairwise {α : Type} (le : α → α → Bool)
    (htot : ∀ a b, (le a b || le b a) = true)
    (htr : ∀ {a b c}, le a b = true → le b c = true → le a c = true)
    (l : List α) : (stableSort le l).Pairwise (fun a b => le a b = true) := by
  induction l with
  | nil => simp [stableSort]
  | cons x xs ih =>
    rw [stableSort]
    exact insertStable_pairwise le htot htr x _ ih

theorem keyLE_total (x y : ℕ × Doc) : (keyLE x y || keyLE y x) = true := by
  simp only [keyLE, Bool.or_eq_true, decide_eq_true_eq]
  rcases lt_trichotomy x.1 y.1 with h | h | h
  · exact Or.inr (Or.inl h)
  · rcases lt_trichotomy x.2.doc_id y.2.doc_id with h2 | h2 | h2
    · exact Or.inl (Or.inr ⟨h, Or.inl h2⟩)
    · rcases lt_trichotomy x.2.title y.2.title with h3 | h3 | h3
      · exact Or.inl (Or.inr ⟨h, Or.inr ⟨h2, Or.inl h3⟩⟩)
      · exact Or.inl (Or.inr ⟨h, Or.inr ⟨h2, Or.inr h3⟩⟩)
      · exact Or.inr (Or.inr ⟨h.symm, Or.inr ⟨h2.symm, Or.inl h3⟩⟩)
    · exact Or.inr (Or.inr ⟨h.symm, Or.inl h2⟩)
  · exact Or.inl (Or.inl h)

theorem keyLE_trans {x y z : ℕ × Doc} (h1 : keyLE x y = true) (h2 : keyLE y z = true) :
    keyLE x z = true := by
  simp only [keyLE, decide_eq_true_eq] at h1 h2 ⊢
  rcases h1 with ha | ⟨he, hb⟩
  · rcases h2 with hc | ⟨hf, _⟩
    · exact Or.inl (lt_trans hc ha)
    · exact Or.inl (hf ▸ ha)
  · rcases h2 with hc | ⟨hf, hd⟩
    · exact Or.inl (by rw [he]; exact hc)
    · refine Or.inr ⟨he.trans hf, ?_⟩
      rcases hb with hb1 | ⟨hbe, hb2⟩
      · rcases hd with hd1 | ⟨hde, _⟩
        · exact Or.inl (lt_trans hb1 hd1)
        · exact Or.inl (hde ▸ hb1)
      · rcases hd with hd1 | ⟨hde, hd2⟩
        · exact Or.inl (by rw [hbe]; exact hd1)
        · refine Or.inr ⟨hbe.trans hde, ?_⟩
          rcases hb2 with hb3 | hb3
          · rcases hd2 with hd3 | hd3
            · exact Or.inl (lt_trans hb3 hd3)
            · exact Or.inl (hd3 ▸ hb3)
          · rcases hd2 with hd3 | hd3
            · exact Or.inl (by rw [hb3]; exact hd3)
            · exact Or.inr (hb3.trans hd3)

/-- C7 (amended): `retrieve` equals the spec-side description — rank all
documents by descending shared-token score with ties broken by ascending
`(doc_id, title)`; return the positive-scoring documents in rank order
truncated to `k`, falling back to the first `k` of the ranking only when no
document scores above zero.  The ranking is a permutation of the scored
collection and is sorted in the key order. -/
theorem retrieve_eq_spec (docs : List Doc) (query : String) (k : ℕ) :
    retrieve docs query k = retrieveSpec docs query k ∧
    (rankDocs docs query).Perm
      (docs.map (fun d => (score query (d.title ++ " " ++ d.text), d))) ∧
    (rankDocs docs query).Pairwise (fun a b => keyLE a b = true) := by
  refine ⟨?_, stableSort_perm keyLE _,
    stableSort_pairwise keyLE keyLE_total (fun h1 h2 => keyLE_trans h1 h2) _⟩
  have hmapid : ∀ l : List Doc,
      l.map (fun d => (⟨d.doc_id, d.title, d.text⟩ : Doc)) = l := by
    intro l
    have hfe : (fun d : Doc => (⟨d.doc_id, d.title, d.text⟩ : Doc)) = id :=
      funext fun d => rfl
    rw [hfe, List.map_id]
  unfold retrieve retrieveSpec
  dsimp only
  rw [hmapid]
  cases hall : (rankDocs docs query).all (fun p => p.1 == 0) with
  | true =>
    have hfil : (rankDocs docs query).filter (fun p => 0 < p.1) = [] := by
      rw [List.filter_eq_nil_iff]
      intro p hp
      have hz := List.all_eq_true.mp hall p hp
      simp only [beq_iff_eq] at hz
      simp [hz]
    rw [hfil]
    simp
  | false =>
    have hex : ∃ p ∈ rankDocs docs query, 0 < p.1 := by
      by_contra hno
      push_neg at hno
      have hto : (rankDocs docs query).all (fun p => p.1 == 0) = true := by
        rw [List.all_eq_true]
        intro p hp
        have hle := hno p hp
        simp only [beq_iff_eq]
        omega
      rw [hto] at hall
      exact absurd hall (by simp)
    cases k with
    | zero => simp
    | succ k' =>
      have hfilne : (rankDocs docs query).filter (fun p => 0 < p.1) ≠ [] := by
        intro hnil
        obtain ⟨p, hp, hpos⟩ := hex
        have hmem : p ∈ (rankDocs docs query).filter (fun p => 0 < p.1) :=
          List.mem_filter.mpr ⟨hp, by simpa using hpos⟩
        rw [hnil] at hmem
        simp at hmem
      have hout :
          ((((rankDocs docs query).filter (fun p => 0 < p.1)).map (·.2)).take (k' + 1)).isEmpty
            = false := by
        rw [List.isEmpty_eq_false]
        intro hnil
        rcases List.take_eq_nil_iff.mp hnil with h0 | hmapnil
        · exact absurd h0 (by omega)
        · exact hfilne (List.map_eq_nil_iff.mp hmapnil)
      simp only [hout, Bool.false_eq_true, if_false]

/-- C7 counterexample to the claim as stated: with two documents of which
exactly one scores above zero and `k = 2`, `retrieve` returns only the one
positive-scoring document — it does not pad with the remaining document to
reach `k` (the fallback fires only when no document scores above zero). -/
theorem retrieve_no_padding_counterexample :
    retrieve [⟨"1", "alpha", ""⟩, ⟨"2", "beta", ""⟩] "alpha" 2 = [⟨"1", "alpha", ""⟩] ∧
    (retrieve [⟨"1", "alpha", ""⟩, ⟨"2", "beta", ""⟩] "alpha" 2).length < 2 := by
  exact ⟨by decide, by decide⟩

theorem hybridLoop_eq_dedup_take (k : ℕ) :
    ∀ (l : List MDoc) (seen : List String) (merged : List MDoc),
      merged.length < k →
      hybridLoop k l seen merged = merged ++ (dedupFP seen l).take (k - merged.length) := by
  intro l
  induction l with
  | nil =>
    intro seen merged _
    simp [hybridLoop, dedupFP]
  | cons doc rest ih =>
    intro seen merged hlt
    rw [hybridLoop, dedupFP]
    cases hc : seen.contains (fingerprint doc) with
    | true =>
      simp only [if_true]
      rw [if_neg (by omega : ¬ k ≤ merged.length)]
      exact ih seen merged hlt
    | false =>
      simp only [Bool.false_eq_true, if_false]
      by_cases hk : k ≤ merged.length + 1
      · have hkeq : k = merged.length + 1 := by omega
        rw [if_pos (by simp; omega : k ≤ (merged ++ [doc]).length)]
        have h1 : k - merged.length = 1 := by omega
        rw [h1]
        simp
      · rw [if_neg (by simp; omega : ¬ k ≤ (merged ++ [doc]).length)]
        rw [ih (fingerprint doc :: seen) (merged ++ [doc]) (by simp; omega)]
        have h2 : k - merged.length = (k - (merged.length + 1)) + 1 := by omega
        rw [h2, List.take_succ_cons]
        simp

/-- C8 (amended): for every pair of result lists and every cap `k ≥ 1`, the
hybrid merge returns the first-seen-order fingerprint dedup of the
concatenation truncated to `k` entries (hence at most `k`); in particular
merging `[A, B]` with `[B, C]` at cap 3 yields `[A, B, C]`. -/
theorem hybrid_merge_dedup (b d : List MDoc) (k : ℕ) (hk : 1 ≤ k) :
    hybridMerge b d k = (dedupFP [] (b ++ d)).take k ∧
    (hybridMerge b d k).length ≤ k ∧
    hybridMerge [⟨"A", ""⟩, ⟨"B", ""⟩] [⟨"B", ""⟩, ⟨"C", ""⟩] 3 =
      [⟨"A", ""⟩, ⟨"B", ""⟩, ⟨"C", ""⟩] := by
  have hmain : hybridMerge b d k = (dedupFP [] (b ++ d)).take k := by
    unfold hybridMerge
    rw [hybridLoop_eq_dedup_take k (b ++ d) [] [] (by simpa using hk)]
    simp
  refine ⟨hmain, ?_, by decide⟩
  rw [hmain]
  exact le_trans (List.length_take_le _ _) le_rfl

/-- C8 counterexample to the claim as stated: with cap `k = 0` the merge
still returns one document — the break is checked only after a document is
appended, so the output is not truncated to at most `k` entries for
`k = 0`. -/
theorem hybrid_merge_cap_counterexample :
    hybridMerge [⟨"A", ""⟩] [] 0 = [⟨"A", ""⟩] ∧
    ¬ ((hybridMerge [⟨"A", ""⟩] [] 0).length ≤ 0) := by
  exact ⟨by decide, by decide⟩

/-- Witness applying `hybrid_merge_dedup` at cap 1: the merge of a
singleton list equals the dedup truncated to one entry. -/
theorem hybrid_merge_dedup_witness :
    hybridMerge [⟨"A", ""⟩] [] 1 = (dedupFP [] ([⟨"A", ""⟩] ++ [])).take 1 := by
  exact (hybrid_merge_dedup [⟨"A", ""⟩] [] 1 (by norm_num)).1

end UniAgent
